import Mathlib

/-!
Shallow embedding, in Lean 4, of `bin/fit_script_003.py`: a sequential
nonlinear-fit driver that extracts DCM line-shape parameters from
time-delay scans of optical-density spectra.

Pure numerical helpers (`wrap`, `DCM_lineshape`, `fit_lineshapes`,
`get_roi`) are translated directly; NumPy arrays become `List ℝ`
(elementwise ops become `List.map` / `List.zipWith`), and the flat
10-entry fit-parameter vector becomes `Fin 10 → ℝ`.  The external
solver `scipy.optimize.curve_fit` and the CSV reader are not part of
the repository: the driver is therefore parametrised by oracles for
them, and theorems about the driver quantify over all oracles.
-/

open Real

namespace FitScript

/-- Python float modulo `a % n`, defined (for `n ≠ 0`) as
`a - n * ⌊a / n⌋`; embeds the `%` in `wrap`. -/
noncomputable def fmod (a n : ℝ) : ℝ := a - n * ⌊a / n⌋

/-- function `wrap` from the script: `(phase + π + offset) % (2π) - π - offset`,
default `offset = 0`. -/
noncomputable def wrap (phase : ℝ) (offset : ℝ := 0) : ℝ :=
  fmod (phase + Real.pi + offset) (2 * Real.pi) - Real.pi - offset

lemma fmod_eq_fract (a : ℝ) {n : ℝ} (hn : n ≠ 0) : fmod a n = n * Int.fract (a / n) := by
  unfold fmod Int.fract
  field_simp

lemma fmod_mem_Ico (a : ℝ) {n : ℝ} (hn : 0 < n) : fmod a n ∈ Set.Ico 0 n := by
  rw [fmod_eq_fract a hn.ne']
  constructor
  · exact mul_nonneg hn.le (Int.fract_nonneg _)
  · have h := Int.fract_lt_one (a / n)
    calc n * Int.fract (a / n) < n * 1 := by
          exact mul_lt_mul_of_pos_left h hn
    _ = n := mul_one n

lemma fmod_eq_self_of_mem_Ico {a n : ℝ} (h : a ∈ Set.Ico 0 n) : fmod a n = a := by
  have hn : 0 < n := lt_of_le_of_lt h.1 h.2
  have hfloor : ⌊a / n⌋ = 0 := by
    apply Int.floor_eq_zero_iff.mpr
    constructor
    · exact div_nonneg h.1 hn.le
    · rw [div_lt_one hn]
      exact h.2
  unfold fmod
  rw [hfloor]
  simp

/-- the value `wrap x` (default offset) lies in `[-π, π)`. -/
lemma wrap_mem_Ico (x : ℝ) : wrap x ∈ Set.Ico (-Real.pi) Real.pi := by
  have h := fmod_mem_Ico (x + Real.pi + 0) (by positivity : (0:ℝ) < 2 * Real.pi)
  unfold wrap
  constructor
  · have := h.1
    linarith
  · have := h.2
    linarith

/-- C3 (corrected form): for every real `x`, `wrap x` lies in the
half-open interval `[-π, π)` — closed at `-π`, open at `π`. -/
theorem wrap_mem_Ico_neg_pi_pi (x : ℝ) : -Real.pi ≤ wrap x ∧ wrap x < Real.pi :=
  ⟨(wrap_mem_Ico x).1, (wrap_mem_Ico x).2⟩

/-- C3 counterexample: at `x = π`, `wrap` returns `-π`, which is not in
the claimed interval `(-π, π]`. -/
theorem wrap_pi_not_mem_Ioc : wrap Real.pi ∉ Set.Ioc (-Real.pi) Real.pi := by
  have hval : wrap Real.pi = -Real.pi := by
    have hpi : (0:ℝ) < 2 * Real.pi := by positivity
    unfold wrap fmod
    have : (Real.pi + Real.pi + 0) / (2 * Real.pi) = 1 := by
      field_simp
      ring
    rw [this]
    norm_num
    ring
  rw [hval]
  intro hmem
  exact absurd hmem.1 (lt_irrefl _)

/-- C8: `wrap` (default offset) is idempotent: `wrap (wrap x) = wrap x`. -/
theorem wrap_idempotent (x : ℝ) : wrap (wrap x) = wrap x := by
  have h := wrap_mem_Ico x
  have hmem : wrap x + Real.pi + 0 ∈ Set.Ico (0:ℝ) (2 * Real.pi) := by
    constructor
    · have := h.1
      linarith
    · have := h.2
      linarith
  have key : fmod (wrap x + Real.pi + 0) (2 * Real.pi) = wrap x + Real.pi + 0 :=
    fmod_eq_self_of_mem_Ico hmem
  show fmod (wrap x + Real.pi + 0) (2 * Real.pi) - Real.pi - 0 = wrap x
  rw [key]
  ring

/-- index of the first element strictly greater than `t`
(the `for i,e in enumerate(...): if e > t: break` scan in `get_roi`);
`none` models the `NameError` raised when no element qualifies. -/
def findFirstGt {α : Type} [LinearOrder α] (t : α) : List α → Option ℕ
  | [] => none
  | e :: rest => if t < e then some 0 else (findFirstGt t rest).map (· + 1)

/-- function `get_roi` from the script: first index with energy above
`erange.1`, first index with energy above `erange.2`; `none` models the
`NameError` when either scan finds nothing. -/
def get_roi {α : Type} [LinearOrder α] (energy_axis : List α) (erange : α × α) :
    Option (ℕ × ℕ) := do
  let first ← findFirstGt erange.1 energy_axis
  let last ← findFirstGt erange.2 energy_axis
  pure (first, last)

/-- the ROI energy window used at module level, `erange=(55.15, 57.45)`. -/
noncomputable def erange : ℝ × ℝ := (55.15, 57.45)

lemma findFirstGt_spec {α : Type} [LinearOrder α] {t : α} {l : List α} {i : ℕ}
    (h : findFirstGt t l = some i) :
    ∃ hi : i < l.length, t < l.get ⟨i, hi⟩ ∧ ∀ x ∈ l.take i, x ≤ t := by
  induction l generalizing i with
  | nil => simp [findFirstGt] at h
  | cons e rest ih =>
    by_cases he : t < e
    · simp [findFirstGt, he] at h
      subst h
      exact ⟨by simp, by simpa using he, by simp⟩
    · simp [findFirstGt, he] at h
      obtain ⟨j, hj, hji⟩ := h
      obtain ⟨hjl, hgt, hall⟩ := ih hj
      subst hji
      refine ⟨by simp only [List.length_cons]; omega, ?_, ?_⟩
      · simpa using hgt
      · intro x hx
        rw [List.take_succ_cons] at hx
        rcases List.mem_cons.mp hx with hxe | hxr
        · subst hxe
          exact le_of_not_lt he
        · exact hall x hxr

/-- C2 (corrected form): whenever `get_roi` succeeds (some element
exceeds the lower threshold and some exceeds the upper one) with
`lower < upper`, the returned pair satisfies `first ≤ last < length`,
`first` is the first index whose energy strictly exceeds the lower
threshold (every earlier entry is `≤ lower` and the entry at `first`
is `> lower`), and likewise the entry at `last` exceeds the upper
threshold.  `first < last` need not hold. -/
theorem get_roi_spec {α : Type} [LinearOrder α] {energy_axis : List α}
    {lo hi : α} {first last_ : ℕ} (hlt : lo < hi)
    (h : get_roi energy_axis (lo, hi) = some (first, last_)) :
    first ≤ last_ ∧
      ∃ (hf : first < energy_axis.length) (hl : last_ < energy_axis.length),
        lo < energy_axis.get ⟨first, hf⟩ ∧ hi < energy_axis.get ⟨last_, hl⟩ ∧
          ∀ x ∈ energy_axis.take first, x ≤ lo := by
  have hdo : findFirstGt lo energy_axis = some first ∧
      findFirstGt hi energy_axis = some last_ := by
    unfold get_roi at h
    cases hfo : findFirstGt lo energy_axis with
    | none => rw [hfo] at h; simp [Option.bind] at h
    | some f =>
      cases hlo : findFirstGt hi energy_axis with
      | none => rw [hfo, hlo] at h; simp [Option.bind] at h
      | some l =>
        rw [hfo, hlo] at h
        simp [Option.bind, pure] at h
        exact ⟨congrArg some h.1, congrArg some h.2⟩
  obtain ⟨hf1, hf2⟩ := hdo
  obtain ⟨hfl, hfgt, hfall⟩ := findFirstGt_spec hf1
  obtain ⟨hll, hlgt, _⟩ := findFirstGt_spec hf2
  have hle : first ≤ last_ := by
    by_contra hcon
    push_neg at hcon
    have hmem : energy_axis.get ⟨last_, hll⟩ ∈ energy_axis.take first := by
      have : (energy_axis.take first).get
          ⟨last_, by rw [List.length_take]; omega⟩ = energy_axis.get ⟨last_, hll⟩ := by
        simp [List.get_eq_getElem, List.getElem_take]
      rw [← this]
      exact List.get_mem _ _ _
    have := hfall _ hmem
    exact absurd (lt_trans hlt hlgt) (not_lt.mpr this)
  exact ⟨hle, hfl, hll, hfgt, hlgt, hfall⟩

/-- C2 witness instance. -/
theorem get_roi_spec_witness :
    (55:ℚ) < 57 ∧ get_roi ([50, 56, 58] : List ℚ) (55, 57) = some (1, 2) ∧
    (1 ≤ 2 ∧
      ∃ (hf : 1 < ([50, 56, 58] : List ℚ).length)
        (hl : 2 < ([50, 56, 58] : List ℚ).length),
        (55:ℚ) < ([50, 56, 58] : List ℚ).get ⟨1, hf⟩ ∧
        (57:ℚ) < ([50, 56, 58] : List ℚ).get ⟨2, hl⟩ ∧
        ∀ x ∈ ([50, 56, 58] : List ℚ).take 1, x ≤ 55) :=
  ⟨by norm_num, by decide, get_roi_spec (by norm_num) (by decide)⟩

/-- C2 counterexample: on an axis whose very first entry already exceeds
the upper threshold, `get_roi` succeeds with `first = last = 0`, so the
claimed `first < last` fails. -/
theorem get_roi_first_lt_last_false :
    ¬ ∀ first last_ : ℕ,
        get_roi ([60] : List ℚ) (55, 57) = some (first, last_) → first < last_ := by
  intro hclaim
  have h := hclaim 0 0 (by decide)
  exact absurd h (lt_irrefl 0)

/-- path-length-density product in atomic units (module constant). -/
noncomputable def pldp_au : ℝ := 0.77

/-- fine-structure constant (the value `scipy.constants` supplies). -/
noncomputable def alpha : ℝ := 0.0072973525693

/-- the constant `lineshape_constant = pldp_au / ln 10 * 4 * π * alpha`. -/
noncomputable def lineshape_constant : ℝ :=
  pldp_au / Real.log 10 * 4 * Real.pi * alpha

/-- nominal Xe line width from literature. -/
noncomputable def gamma_xe1 : ℝ := 0.122

/-- the three calibrated resonance energies `e_res = [55.38, 55.98, 57.27]`. -/
noncomputable def e_res : Fin 3 → ℝ := ![55.38, 55.98, 57.27]

/-- function `DCM_lineshape` from the script, at one energy point (NumPy
broadcasts the same expression over the axis):
`z * ((gamma/2*cos phi - (e-e_r)*sin phi) / ((e-e_r)^2 + gamma^2/4))`. -/
noncomputable def DCM_lineshape (energy z phi resonance_energy gamma : ℝ) : ℝ :=
  z * ((gamma / 2 * Real.cos phi - (energy - resonance_energy) * Real.sin phi) /
    ((energy - resonance_energy) ^ 2 + gamma ^ 2 / 4))

/-- C5: `DCM_lineshape` returns exactly
`z * [ (gamma/2)cos(phi) - (e - e_r)sin(phi) ] / [ (e - e_r)^2 + gamma^2/4 ]`
at every point; it is a total function of its real arguments
(deterministic, stateless, never failing). -/
theorem DCM_lineshape_formula (e z phi resonance_energy gamma : ℝ) :
    DCM_lineshape e z phi resonance_energy gamma =
      z * (gamma / 2 * Real.cos phi - (e - resonance_energy) * Real.sin phi) /
        ((e - resonance_energy) ^ 2 + gamma ^ 2 / 4) := by
  unfold DCM_lineshape
  ring

/-- function `fit_lineshapes` from the script: stride-decompose the flat
10-entry parameter vector (`z = params[0::3]` without the last entry,
`phi = params[1::3]`, `gamma = params[2::3]`, background `params[-1]`),
accumulate the three DCM line shapes with strength `z[i]*gamma[i]`
(the loop `for e, energy in enumerate(e_res)` is the fold over the
three indices), scale elementwise by `energy_axis * lineshape_constant`,
then add the background. -/
noncomputable def fit_lineshapes (energy_axis : List ℝ) (params : Fin 10 → ℝ) : List ℝ :=
  let z : Fin 3 → ℝ := ![params 0, params 3, params 6]
  let phi : Fin 3 → ℝ := ![params 1, params 4, params 7]
  let gamma : Fin 3 → ℝ := ![params 2, params 5, params 8]
  let model0 : List ℝ := energy_axis.map (fun _ => 0)
  let model1 := [(0 : Fin 3), 1, 2].foldl
    (fun m i => List.zipWith (· + ·) m
      (energy_axis.map (fun en =>
        DCM_lineshape en (z i * gamma i) (phi i) (e_res i) (gamma i)))) model0
  let model2 := List.zipWith (· * ·) model1
    (energy_axis.map (fun en => en * lineshape_constant))
  model2.map (fun v => v + params 9)

lemma zipWith_map_same {α β : Type} (op : β → β → β) (f g : α → β) (l : List α) :
    List.zipWith op (l.map f) (l.map g) = l.map (fun x => op (f x) (g x)) := by
  induction l with
  | nil => rfl
  | cons a t ih => simp [ih]

/-- C4: on every energy axis and every length-10 parameter vector,
`fit_lineshapes` equals the pointwise map sending each energy `en` to
the sum of the three DCM line shapes — resonance `i` evaluated with
strength `params[3i]*params[3i+2]`, phase `params[3i+1]`, width
`params[3i+2]` at resonance energy `e_res i` — multiplied by
`en * lineshape_constant`, plus the background `params[9]`; in
particular the output has exactly one value per energy point. -/
theorem fit_lineshapes_spec (energy_axis : List ℝ) (params : Fin 10 → ℝ) :
    fit_lineshapes energy_axis params =
      energy_axis.map (fun en =>
        (DCM_lineshape en (params 0 * params 2) (params 1) (e_res 0) (params 2) +
         DCM_lineshape en (params 3 * params 5) (params 4) (e_res 1) (params 5) +
         DCM_lineshape en (params 6 * params 8) (params 7) (e_res 2) (params 8)) *
          (en * lineshape_constant) + params 9) ∧
    (fit_lineshapes energy_axis params).length = energy_axis.length := by
  have hmap : fit_lineshapes energy_axis params =
      energy_axis.map (fun en =>
        (DCM_lineshape en (params 0 * params 2) (params 1) (e_res 0) (params 2) +
         DCM_lineshape en (params 3 * params 5) (params 4) (e_res 1) (params 5) +
         DCM_lineshape en (params 6 * params 8) (params 7) (e_res 2) (params 8)) *
          (en * lineshape_constant) + params 9) := by
    unfold fit_lineshapes
    simp only [List.foldl_cons, List.foldl_nil, zipWith_map_same, List.map_map]
    simp [Function.comp, zero_add, add_assoc]
  exact ⟨hmap, by rw [hmap]; simp⟩

/-- the parameter normalization applied to `p_init` before each
bounds-constrained fit: `p_init[1:-1:3] = wrap(p_init[1:-1:3])`,
`p_init[:-1:3] = abs(p_init[:-1:3])`, `p_init[2:-1:3] = abs(...)`.
On a length-10 vector the three slice assignments touch the disjoint
index sets {1,4,7}, {0,3,6}, {2,5,8}; entry 9 is untouched. -/
noncomputable def normalize (p : Fin 10 → ℝ) : Fin 10 → ℝ := fun i =>
  if i.val = 1 ∨ i.val = 4 ∨ i.val = 7 then wrap (p i)
  else if i.val = 9 then p i
  else |p i|

/-- the seed guess `p_initial = [1, 0, gamma_xe1]*3 + [0]`. -/
noncomputable def p_initial : Fin 10 → ℝ :=
  ![1, 0, gamma_xe1, 1, 0, gamma_xe1, 1, 0, gamma_xe1, 0]

/-- the bounds `lower_bounds = [1e-6, -2*pi, 0.4*gamma_xe1]*3 + [-15]`. -/
noncomputable def lower_bounds : Fin 10 → ℝ :=
  ![1e-6, -(2*Real.pi), 0.4*gamma_xe1,
    1e-6, -(2*Real.pi), 0.4*gamma_xe1,
    1e-6, -(2*Real.pi), 0.4*gamma_xe1, -15]

/-- the bounds `upper_bounds = [np.inf, 2*pi, 2.7*gamma_xe1]*3 + [20]`; `np.inf`
is modelled as `⊤ : EReal`. -/
noncomputable def upper_bounds : Fin 10 → EReal :=
  ![⊤, ((2*Real.pi : ℝ) : EReal), ((2.7*gamma_xe1 : ℝ) : EReal),
    ⊤, ((2*Real.pi : ℝ) : EReal), ((2.7*gamma_xe1 : ℝ) : EReal),
    ⊤, ((2*Real.pi : ℝ) : EReal), ((2.7*gamma_xe1 : ℝ) : EReal), ((20 : ℝ) : EReal)]

/-- componentwise feasibility for the bounds `(lower_bounds, upper_bounds)`. -/
def inBounds (p : Fin 10 → ℝ) : Prop :=
  ∀ i, lower_bounds i ≤ p i ∧ (p i : EReal) ≤ upper_bounds i

/-- python slice `l[first:last]` (used for `[roi]` with
`roi = slice(first, last)`). -/
def pySlice (roi : ℕ × ℕ) (l : List ℝ) : List ℝ := (l.take roi.2).drop roi.1

/-- default entry used by positional `getD` access to inner-loop steps. -/
noncomputable def stepDefault :
    (Fin 10 → ℝ) × (Fin 10 → ℝ) × (Fin 10 → Fin 10 → ℝ) :=
  (fun _ => 0, fun _ => 0, fun _ _ => 0)

/-- the inner loop `for s, spectrum in enumerate(OD)`: normalize the
current `p_init`, call the bounds-constrained `curve_fit` (abstracted
as the oracle `boundedFit`, returning `(popt, pcov)`) on
`spectrum[roi]`, record `(guess, popt, pcov)`, and chain `p_init = popt`
into the next iteration. -/
noncomputable def innerSteps
    (boundedFit : (Fin 10 → ℝ) → List ℝ → (Fin 10 → ℝ) × (Fin 10 → Fin 10 → ℝ))
    (roi : ℕ × ℕ) :
    (Fin 10 → ℝ) → List (List ℝ) →
      List ((Fin 10 → ℝ) × (Fin 10 → ℝ) × (Fin 10 → Fin 10 → ℝ))
  | _, [] => []
  | p_init, spectrum :: rest =>
    let g := normalize p_init
    let r := boundedFit g (pySlice roi spectrum)
    (g, r.1, r.2) :: innerSteps boundedFit roi r.1 rest

lemma innerSteps_length (boundedFit) (roi : ℕ × ℕ) (p : Fin 10 → ℝ)
    (specs : List (List ℝ)) :
    (innerSteps boundedFit roi p specs).length = specs.length := by
  induction specs generalizing p with
  | nil => rfl
  | cons spec rest ih => simp [innerSteps, ih]

/-- C1: in every inner-loop iteration after the first, the guess handed
to the bounds-constrained fit is the immediately preceding fit's output
parameter vector passed through `normalize` (phases at 1,4,7 wrapped,
strengths at 0,3,6 and widths at 2,5,8 made non-negative, background 9
unchanged) — for every fit oracle, ROI, seed and spectrum list. -/
theorem innerSteps_guess_eq_normalize_prev
    (boundedFit : (Fin 10 → ℝ) → List ℝ → (Fin 10 → ℝ) × (Fin 10 → Fin 10 → ℝ))
    (roi : ℕ × ℕ) (p : Fin 10 → ℝ) (specs : List (List ℝ)) (s : ℕ)
    (h : s + 1 < (innerSteps boundedFit roi p specs).length) :
    ((innerSteps boundedFit roi p specs).getD (s + 1) stepDefault).1 =
      normalize (((innerSteps boundedFit roi p specs).getD s stepDefault).2.1) := by
  induction specs generalizing p s with
  | nil => simp [innerSteps] at h
  | cons spec rest ih =>
    cases s with
    | zero =>
      cases rest with
      | nil =>
        rw [innerSteps_length] at h
        simp at h
      | cons spec2 rest2 => simp [innerSteps]
    | succ s' =>
      have h' : s' + 1 < (innerSteps boundedFit roi
          (boundedFit (normalize p) (pySlice roi spec)).1 rest).length := by
        rw [innerSteps_length] at h ⊢
        simp at h
        omega
      have := ih (boundedFit (normalize p) (pySlice roi spec)).1 s' h'
      simpa [innerSteps] using this

/-- C1 witness instance. -/
theorem innerSteps_guess_eq_normalize_prev_witness :
    0 + 1 < (innerSteps (fun g _ => (g, fun _ _ => 0)) (0, 0)
      (fun _ => 0) [[], []]).length ∧
    ((innerSteps (fun g _ => (g, fun _ _ => 0)) (0, 0)
        (fun _ => 0) [[], []]).getD (0 + 1) stepDefault).1 =
      normalize (((innerSteps (fun g _ => (g, fun _ _ => 0)) (0, 0)
        (fun _ => 0) [[], []]).getD 0 stepDefault).2.1) := by
  have h : 0 + 1 < (innerSteps (fun g _ => (g, fun _ _ => 0)) (0, 0)
      ((fun _ => 0) : Fin 10 → ℝ) [[], []]).length := by
    rw [innerSteps_length]
    simp
  exact ⟨h, innerSteps_guess_eq_normalize_prev _ _ _ _ 0 h⟩

lemma normalize_strength (p : Fin 10 → ℝ) (i : Fin 10)
    (hi : i.val = 0 ∨ i.val = 3 ∨ i.val = 6) : normalize p i = |p i| := by
  simp only [normalize]
  rw [if_neg (by omega), if_neg (by omega)]

lemma normalize_phase (p : Fin 10 → ℝ) (i : Fin 10)
    (hi : i.val = 1 ∨ i.val = 4 ∨ i.val = 7) : normalize p i = wrap (p i) := by
  simp only [normalize]
  rw [if_pos hi]

lemma normalize_width (p : Fin 10 → ℝ) (i : Fin 10)
    (hi : i.val = 2 ∨ i.val = 5 ∨ i.val = 8) : normalize p i = |p i| := by
  simp only [normalize]
  rw [if_neg (by omega), if_neg (by omega)]

lemma normalize_bg (p : Fin 10 → ℝ) (i : Fin 10) (hi : i.val = 9) :
    normalize p i = p i := by
  simp only [normalize]
  rw [if_neg (by omega), if_pos hi]

lemma bounds_strength {i : Fin 10} (hi : i.val = 0 ∨ i.val = 3 ∨ i.val = 6) :
    lower_bounds i = 1e-6 ∧ upper_bounds i = ⊤ := by
  rcases hi with hi | hi | hi
  · have he : i = ⟨0, by norm_num⟩ := Fin.ext hi
    subst he; exact ⟨rfl, rfl⟩
  · have he : i = ⟨3, by norm_num⟩ := Fin.ext hi
    subst he; exact ⟨rfl, rfl⟩
  · have he : i = ⟨6, by norm_num⟩ := Fin.ext hi
    subst he; exact ⟨rfl, rfl⟩

lemma bounds_phase {i : Fin 10} (hi : i.val = 1 ∨ i.val = 4 ∨ i.val = 7) :
    lower_bounds i = -(2*Real.pi) ∧ upper_bounds i = ((2*Real.pi : ℝ) : EReal) := by
  rcases hi with hi | hi | hi
  · have he : i = ⟨1, by norm_num⟩ := Fin.ext hi
    subst he; exact ⟨rfl, rfl⟩
  · have he : i = ⟨4, by norm_num⟩ := Fin.ext hi
    subst he; exact ⟨rfl, rfl⟩
  · have he : i = ⟨7, by norm_num⟩ := Fin.ext hi
    subst he; exact ⟨rfl, rfl⟩

lemma bounds_width {i : Fin 10} (hi : i.val = 2 ∨ i.val = 5 ∨ i.val = 8) :
    lower_bounds i = 0.4*gamma_xe1 ∧ upper_bounds i = ((2.7*gamma_xe1 : ℝ) : EReal) := by
  rcases hi with hi | hi | hi
  · have he : i = ⟨2, by norm_num⟩ := Fin.ext hi
    subst he; exact ⟨rfl, rfl⟩
  · have he : i = ⟨5, by norm_num⟩ := Fin.ext hi
    subst he; exact ⟨rfl, rfl⟩
  · have he : i = ⟨8, by norm_num⟩ := Fin.ext hi
    subst he; exact ⟨rfl, rfl⟩

lemma bounds_bg {i : Fin 10} (hi : i.val = 9) :
    lower_bounds i = -15 ∧ upper_bounds i = ((20 : ℝ) : EReal) := by
  have he : i = ⟨9, by norm_num⟩ := Fin.ext hi
  subst he; exact ⟨rfl, rfl⟩

/-- C9: the normalization step maps any vector satisfying the fit
bounds componentwise (strengths ≥ 1e-6 with no upper bound, phases in
[-2π, 2π], widths in [0.4·gamma_xe1, 2.7·gamma_xe1], background in
[-15, 20]) back into those same bounds, so a warm-started guess derived
from an in-bounds previous fit result is always feasible for the next
bounds-constrained fit. -/
theorem normalize_preserves_inBounds (p : Fin 10 → ℝ) (h : inBounds p) :
    inBounds (normalize p) := by
  have hpi : (0:ℝ) < Real.pi := Real.pi_pos
  intro i
  have hlt : i.val < 10 := i.isLt
  have hv : (i.val = 0 ∨ i.val = 3 ∨ i.val = 6) ∨ (i.val = 1 ∨ i.val = 4 ∨ i.val = 7) ∨
      (i.val = 2 ∨ i.val = 5 ∨ i.val = 8) ∨ i.val = 9 := by omega
  rcases hv with hs | hp | hw | hb
  · obtain ⟨hl, hu⟩ := bounds_strength hs
    have hlow := (h i).1
    rw [hl] at hlow
    have hnn : (0:ℝ) ≤ p i := le_trans (by norm_num) hlow
    rw [normalize_strength p i hs, hl, hu, abs_of_nonneg hnn]
    exact ⟨hlow, le_top⟩
  · obtain ⟨hl, hu⟩ := bounds_phase hp
    have hwr := wrap_mem_Ico (p i)
    rw [normalize_phase p i hp, hl, hu]
    constructor
    · have := hwr.1
      linarith
    · have hle : wrap (p i) ≤ 2*Real.pi := by
        have := hwr.2
        linarith
      exact_mod_cast hle
  · obtain ⟨hl, hu⟩ := bounds_width hw
    have hlow := (h i).1
    have hup := (h i).2
    rw [hl] at hlow
    rw [hu] at hup
    have hnn : (0:ℝ) ≤ p i := le_trans (by norm_num [gamma_xe1]) hlow
    rw [normalize_width p i hw, hl, hu, abs_of_nonneg hnn]
    exact ⟨hlow, hup⟩
  · obtain ⟨hl, hu⟩ := bounds_bg hb
    rw [normalize_bg p i hb]
    exact h i

/-- C9 witness instance: `p_initial` is in bounds and stays in bounds. -/
theorem normalize_preserves_inBounds_witness :
    inBounds p_initial ∧ inBounds (normalize p_initial) := by
  have hpi : (0:ℝ) < Real.pi := Real.pi_pos
  have hbase : inBounds p_initial := by
    intro i
    have hlt : i.val < 10 := i.isLt
    have hv : (i.val = 0 ∨ i.val = 3 ∨ i.val = 6) ∨ (i.val = 1 ∨ i.val = 4 ∨ i.val = 7) ∨
        (i.val = 2 ∨ i.val = 5 ∨ i.val = 8) ∨ i.val = 9 := by omega
    rcases hv with hs | hp | hw | hb
    · obtain ⟨hl, hu⟩ := bounds_strength hs
      have hval : p_initial i = 1 := by
        rcases hs with hi | hi | hi
        · have he : i = ⟨0, by norm_num⟩ := Fin.ext hi
          subst he; rfl
        · have he : i = ⟨3, by norm_num⟩ := Fin.ext hi
          subst he; rfl
        · have he : i = ⟨6, by norm_num⟩ := Fin.ext hi
          subst he; rfl
      rw [hl, hu, hval]
      exact ⟨by norm_num, le_top⟩
    · obtain ⟨hl, hu⟩ := bounds_phase hp
      have hval : p_initial i = 0 := by
        rcases hp with hi | hi | hi
        · have he : i = ⟨1, by norm_num⟩ := Fin.ext hi
          subst he; rfl
        · have he : i = ⟨4, by norm_num⟩ := Fin.ext hi
          subst he; rfl
        · have he : i = ⟨7, by norm_num⟩ := Fin.ext hi
          subst he; rfl
      rw [hl, hu, hval]
      constructor
      · linarith
      · have : (0:ℝ) ≤ 2*Real.pi := by linarith
        exact_mod_cast this
    · obtain ⟨hl, hu⟩ := bounds_width hw
      have hval : p_initial i = gamma_xe1 := by
        rcases hw with hi | hi | hi
        · have he : i = ⟨2, by norm_num⟩ := Fin.ext hi
          subst he; rfl
        · have he : i = ⟨5, by norm_num⟩ := Fin.ext hi
          subst he; rfl
        · have he : i = ⟨8, by norm_num⟩ := Fin.ext hi
          subst he; rfl
      rw [hl, hu, hval]
      constructor
      · norm_num [gamma_xe1]
      · have : gamma_xe1 ≤ 2.7*gamma_xe1 := by norm_num [gamma_xe1]
        exact_mod_cast this
    · obtain ⟨hl, hu⟩ := bounds_bg hb
      have hval : p_initial i = 0 := by
        have he : i = ⟨9, by norm_num⟩ := Fin.ext hb
        subst he; rfl
      rw [hl, hu, hval]
      constructor
      · norm_num
      · have : (0:ℝ) ≤ 20 := by norm_num
        exact_mod_cast this
  exact ⟨hbase, normalize_preserves_inBounds p_initial hbase⟩

/-- the column mean `np.mean(rows, axis=0)`: columnwise sum divided by the row count
(models `freq_marginal = np.mean(OD[:7], axis=0)` when applied to
`OD.take 7`). -/
def sumRows : List (List ℝ) → List ℝ
  | [] => []
  | [r] => r
  | r :: rest => List.zipWith (· + ·) r (sumRows rest)

noncomputable def colMean (rows : List (List ℝ)) : List ℝ :=
  (sumRows rows).map (fun v => v / (rows.length : ℝ))

/-- one column of the output table:
`df[...] = opt_params[ii, ::-1, 3*num + k]` — intensity `ii`'s fitted
component `3*num + k`, in reversed time-delay order. -/
noncomputable def aggColumn (optimum : List (List (Fin 10 → ℝ))) (ii : ℕ)
    (num k : Fin 3) : List ℝ :=
  ((optimum.getD ii []).map (fun p =>
    p ⟨3 * num.val + k.val, by have h1 := num.isLt; have h2 := k.isLt; omega⟩)).reverse

/-- the written artifact `op.csv`: the `time` column plus, for each
intensity index and resonance, the strength/phase/width columns. -/
structure OutputTable where
  time : List ℝ
  cols : ℕ → Fin 3 → Fin 3 → List ℝ

/-- the result-aggregation block:
`df["time"] = time_delay_axis[::-1]` and the nested
`for ii,intens / for num in range(3)` column assignments.  `fit_errs`
(the per-fit standard errors) is in scope there but never written. -/
noncomputable def aggregate (time_delay_axis : List ℝ)
    (optimum fit_errs : List (List (Fin 10 → ℝ))) : OutputTable :=
  { time := time_delay_axis.reverse
    cols := fun ii num k => aggColumn optimum ii num k }

lemma getD_reverse (l : List ℝ) (r : ℕ) (h : r < l.length) :
    (l.reverse).getD r 0 = l.getD (l.length - 1 - r) 0 := by
  rw [List.getD_eq_getElem?_getD, List.getD_eq_getElem?_getD,
      List.getElem?_reverse (by simpa using h)]

lemma getD_reverse_map (l : List (Fin 10 → ℝ)) (j : Fin 10) (r : ℕ) (h : r < l.length) :
    ((l.map (fun p => p j)).reverse).getD r 0 =
      (l.getD (l.length - 1 - r) (fun _ => 0)) j := by
  have hidx : l.length - 1 - r < l.length := by omega
  rw [List.getD_eq_getElem?_getD, List.getD_eq_getElem?_getD]
  rw [List.getElem?_reverse (by simpa using h)]
  rw [List.getElem?_map]
  simp only [List.length_map]
  rw [List.getElem?_eq_getElem hidx]
  rfl

/-- the effect of the NumPy aliasing on the stored rows:
`params.append(popt)` (line 183) appends the very array object that
`p_init = popt` (line 187) aliases, and the next iteration's in-place
slice assignments `p_init[1:-1:3] = wrap(...)`, `p_init[:-1:3] = abs(...)`,
`p_init[2:-1:3] = abs(...)` (lines 174-176) mutate it; `np.array(optimum)`
copies only after all loops.  So every stored row except the last
fitted one per intensity ends up holding `normalize popt`, and only the
final row holds the raw fit output. -/
noncomputable def storedParams : List (Fin 10 → ℝ) → List (Fin 10 → ℝ)
  | [] => []
  | [p] => [p]
  | p :: q :: rest => normalize p :: storedParams (q :: rest)

lemma storedParams_length (l : List (Fin 10 → ℝ)) :
    (storedParams l).length = l.length := by
  induction l with
  | nil => rfl
  | cons p rest ih =>
    cases rest with
    | nil => rfl
    | cons q rest2 =>
      simp only [storedParams, List.length_cons] at ih ⊢
      omega

lemma storedParams_getD (l : List (Fin 10 → ℝ)) (s : ℕ) (hs : s < l.length) :
    (storedParams l).getD s (fun _ => 0) =
      if s = l.length - 1 then l.getD s (fun _ => 0)
      else normalize (l.getD s (fun _ => 0)) := by
  induction l generalizing s with
  | nil => simp at hs
  | cons p rest ih =>
    cases rest with
    | nil =>
      have hs0 : s = 0 := by simp at hs; omega
      subst hs0
      simp [storedParams]
    | cons q rest2 =>
      cases s with
      | zero =>
        rw [if_neg (by simp only [List.length_cons]; omega)]
        simp [storedParams]
      | succ s' =>
        have hs' : s' < (q :: rest2).length := by
          simp only [List.length_cons] at hs ⊢
          omega
        have hrec := ih s' hs'
        show (storedParams (q :: rest2)).getD s' (fun _ => 0) = _
        rw [hrec]
        by_cases hc : s' = (q :: rest2).length - 1
        · rw [if_pos hc, if_pos (by simp only [List.length_cons] at hc ⊢; omega)]
          rfl
        · rw [if_neg hc, if_neg (by simp only [List.length_cons] at hc ⊢; omega)]
          rfl

/-- the outer loop `for i,intensity in enumerate(intensities)` of the
script, with `curve_fit` abstracted: `getOD` models the CSV load
(returning the OD matrix and the parsed time-delay axis), `seedFit`
the unconstrained seed fit on the averaged first 7 rows, `boundedFit`
the bounds-constrained fit.  The accumulator mirrors the script state
`(optimum, fit_errs, time_delay_axis)`; the `Option` records that
`time_delay_axis` is undefined before the first iteration and is
overwritten by each intensity's axis.  The appended parameter rows go
through `storedParams`, reflecting that the appended `popt` arrays are
retro-normalized in place by the following iteration (the error rows
are fresh `np.sqrt` arrays and are never mutated). -/
noncomputable def fitLoop (getOD : ℝ → List (List ℝ) × List ℝ)
    (seedFit boundedFit : (Fin 10 → ℝ) → List ℝ → (Fin 10 → ℝ) × (Fin 10 → Fin 10 → ℝ))
    (roi : ℕ × ℕ) :
    List (List (Fin 10 → ℝ)) × List (List (Fin 10 → ℝ)) × Option (List ℝ) →
      List ℝ → List (List (Fin 10 → ℝ)) × List (List (Fin 10 → ℝ)) × Option (List ℝ)
  | acc, [] => acc
  | acc, intensity :: rest =>
    let od := getOD intensity
    let seeded := seedFit p_initial (pySlice roi (colMean (od.1.take 7)))
    let steps := innerSteps boundedFit roi seeded.1 od.1
    fitLoop getOD seedFit boundedFit roi
      (acc.1 ++ [storedParams (steps.map (fun st => st.2.1))],
       acc.2.1 ++ [steps.map (fun st => fun i => Real.sqrt |st.2.2 i i|)],
       some od.2) rest

/-- the raw fit outputs (popt of each bounds-constrained fit, in
stored row order) produced while processing one intensity `x`. -/
noncomputable def intensityPopts (getOD : ℝ → List (List ℝ) × List ℝ)
    (seedFit boundedFit : (Fin 10 → ℝ) → List ℝ → (Fin 10 → ℝ) × (Fin 10 → Fin 10 → ℝ))
    (roi : ℕ × ℕ) (x : ℝ) : List (Fin 10 → ℝ) :=
  (innerSteps boundedFit roi
    (seedFit p_initial (pySlice roi (colMean ((getOD x).1.take 7)))).1
    (getOD x).1).map (fun st => st.2.1)

/-- the parameter rows as the script actually stores them for one
intensity: the raw popts after the aliased in-place
retro-normalization. -/
noncomputable def intensityParams (getOD : ℝ → List (List ℝ) × List ℝ)
    (seedFit boundedFit : (Fin 10 → ℝ) → List ℝ → (Fin 10 → ℝ) × (Fin 10 → Fin 10 → ℝ))
    (roi : ℕ × ℕ) (x : ℝ) : List (Fin 10 → ℝ) :=
  storedParams (intensityPopts getOD seedFit boundedFit roi x)

lemma fitLoop_params (getOD : ℝ → List (List ℝ) × List ℝ)
    (seedFit boundedFit : (Fin 10 → ℝ) → List ℝ → (Fin 10 → ℝ) × (Fin 10 → Fin 10 → ℝ))
    (roi : ℕ × ℕ) :
    ∀ (ints : List ℝ)
      (acc : List (List (Fin 10 → ℝ)) × List (List (Fin 10 → ℝ)) × Option (List ℝ)),
      (fitLoop getOD seedFit boundedFit roi acc ints).1 =
        acc.1 ++ ints.map (intensityParams getOD seedFit boundedFit roi) := by
  intro ints
  induction ints with
  | nil =>
    intro acc
    simp [fitLoop]
  | cons a rest ih =>
    intro acc
    show (fitLoop getOD seedFit boundedFit roi _ rest).1 = _
    rw [ih]
    simp [intensityParams, intensityPopts]

/-- C6 (corrected form): in the actual run, the output column for
intensity `ii` and parameter `3*num + k` holds at table row `r`: for
`r = 0` the raw output of the intensity's final fit (spectrum row
`n - 1`), and for `r ≥ 1` the wrap/abs-NORMALIZED output of the fit of
spectrum row `n - 1 - r` — because `params.append(popt)` aliases the
array that the next iteration's in-place slice assignments mutate.
The `time` column still holds the time-delay axis reversed, and the
written table does not depend on the computed uncertainties at all. -/
theorem aggregate_stored_rows (getOD : ℝ → List (List ℝ) × List ℝ)
    (seedFit boundedFit : (Fin 10 → ℝ) → List ℝ → (Fin 10 → ℝ) × (Fin 10 → Fin 10 → ℝ))
    (roi : ℕ × ℕ) (ints tda : List ℝ) (fit_errs : List (List (Fin 10 → ℝ)))
    (ii : ℕ) (num k : Fin 3) (r r' : ℕ)
    (hii : ii < ints.length)
    (hr : r < (intensityPopts getOD seedFit boundedFit roi (ints.getD ii 0)).length)
    (hr' : r' < tda.length) :
    ((aggregate tda (fitLoop getOD seedFit boundedFit roi ([], [], none) ints).1
        fit_errs).cols ii num k).getD r 0 =
      (if r = 0
       then (intensityPopts getOD seedFit boundedFit roi (ints.getD ii 0)).getD
         ((intensityPopts getOD seedFit boundedFit roi (ints.getD ii 0)).length - 1 - r)
         (fun _ => 0)
       else normalize ((intensityPopts getOD seedFit boundedFit roi (ints.getD ii 0)).getD
         ((intensityPopts getOD seedFit boundedFit roi (ints.getD ii 0)).length - 1 - r)
         (fun _ => 0)))
        ⟨3 * num.val + k.val, by have h1 := num.isLt; have h2 := k.isLt; omega⟩ ∧
    (aggregate tda (fitLoop getOD seedFit boundedFit roi ([], [], none) ints).1
        fit_errs).time.getD r' 0 = tda.getD (tda.length - 1 - r') 0 ∧
    ∀ fit_errs', aggregate tda
        (fitLoop getOD seedFit boundedFit roi ([], [], none) ints).1 fit_errs' =
      aggregate tda (fitLoop getOD seedFit boundedFit roi ([], [], none) ints).1 fit_errs := by
  refine ⟨?_, getD_reverse tda r' hr', fun _ => rfl⟩
  have hopt : (fitLoop getOD seedFit boundedFit roi ([], [], none) ints).1 =
      ints.map (intensityParams getOD seedFit boundedFit roi) := by
    simpa using fitLoop_params getOD seedFit boundedFit roi ints ([], [], none)
  show (aggColumn (fitLoop getOD seedFit boundedFit roi ([], [], none) ints).1
      ii num k).getD r 0 = _
  rw [hopt]
  unfold aggColumn
  have hgd : (ints.map (intensityParams getOD seedFit boundedFit roi)).getD ii [] =
      intensityParams getOD seedFit boundedFit roi (ints.getD ii 0) := by
    rw [List.getD_eq_getElem _ _ (by simpa using hii), List.getElem_map,
        List.getD_eq_getElem ints 0 hii]
  rw [hgd]
  have hlen : (intensityParams getOD seedFit boundedFit roi (ints.getD ii 0)).length =
      (intensityPopts getOD seedFit boundedFit roi (ints.getD ii 0)).length :=
    storedParams_length _
  rw [getD_reverse_map _ _ _ (by rw [hlen]; exact hr)]
  rw [hlen]
  have hs : (intensityPopts getOD seedFit boundedFit roi (ints.getD ii 0)).length - 1 - r <
      (intensityPopts getOD seedFit boundedFit roi (ints.getD ii 0)).length := by omega
  rw [show intensityParams getOD seedFit boundedFit roi (ints.getD ii 0) =
      storedParams (intensityPopts getOD seedFit boundedFit roi (ints.getD ii 0)) from rfl]
  rw [storedParams_getD _ _ hs]
  by_cases hr0 : r = 0
  · subst hr0
    rw [if_pos (by omega), if_pos rfl]
  · rw [if_neg (by omega), if_neg hr0]

/-- a two-row spectrum-load oracle used for witness and counterexample
runs: two (empty) time-delay rows per intensity. -/
noncomputable def odOracle : ℝ → List (List ℝ) × List ℝ := fun x => ([[], []], [x])

/-- a fit oracle that echoes its initial guess. -/
noncomputable def idFit :
    (Fin 10 → ℝ) → List ℝ → (Fin 10 → ℝ) × (Fin 10 → Fin 10 → ℝ) :=
  fun g _ => (g, fun _ _ => 0)

/-- C6 witness instance. -/
theorem aggregate_stored_rows_witness :
    (0:ℕ) < ([1] : List ℝ).length ∧
    1 < (intensityPopts odOracle idFit idFit (0, 0) (([1] : List ℝ).getD 0 0)).length ∧
    (0:ℕ) < ([10, 20] : List ℝ).length ∧
    (((aggregate [10, 20] (fitLoop odOracle idFit idFit (0, 0) ([], [], none) [1]).1
        []).cols 0 0 0).getD 1 0 =
      (if (1:ℕ) = 0
       then (intensityPopts odOracle idFit idFit (0, 0) (([1] : List ℝ).getD 0 0)).getD
         ((intensityPopts odOracle idFit idFit (0, 0) (([1] : List ℝ).getD 0 0)).length - 1 - 1)
         (fun _ => 0)
       else normalize
         ((intensityPopts odOracle idFit idFit (0, 0) (([1] : List ℝ).getD 0 0)).getD
           ((intensityPopts odOracle idFit idFit (0, 0) (([1] : List ℝ).getD 0 0)).length - 1 - 1)
           (fun _ => 0)))
        ⟨3 * (0 : Fin 3).val + (0 : Fin 3).val, by norm_num⟩ ∧
    (aggregate [10, 20] (fitLoop odOracle idFit idFit (0, 0) ([], [], none) [1]).1
        []).time.getD 0 0 = ([10, 20] : List ℝ).getD (([10, 20] : List ℝ).length - 1 - 0) 0 ∧
    ∀ fit_errs', aggregate [10, 20]
        (fitLoop odOracle idFit idFit (0, 0) ([], [], none) [1]).1 fit_errs' =
      aggregate [10, 20] (fitLoop odOracle idFit idFit (0, 0) ([], [], none) [1]).1 []) := by
  have hii : (0:ℕ) < ([1] : List ℝ).length := by simp
  have hr : 1 < (intensityPopts odOracle idFit idFit (0, 0) (([1] : List ℝ).getD 0 0)).length := by
    simp [intensityPopts, innerSteps_length, odOracle]
  have hr' : (0:ℕ) < ([10, 20] : List ℝ).length := by simp
  exact ⟨hii, hr, hr',
    aggregate_stored_rows odOracle idFit idFit (0, 0) [1] [10, 20] [] 0 0 0 1 0 hii hr hr'⟩

lemma wrap_two_pi : wrap (2 * Real.pi) = 0 := by
  have h32 : (2 * Real.pi + Real.pi + 0) / (2 * Real.pi) = 3 / 2 := by
    have hne : (2:ℝ) * Real.pi ≠ 0 := by positivity
    field_simp
    ring
  have hf : ⌊(3 / 2 : ℝ)⌋ = 1 := by
    apply Int.floor_eq_iff.mpr
    constructor <;> norm_num
  show fmod (2 * Real.pi + Real.pi + 0) (2 * Real.pi) - Real.pi - 0 = 0
  unfold fmod
  rw [h32, hf]
  push_cast
  ring

/-- a fit oracle whose every output has all components `2π` — a phase
the bounds `[-2π, 2π]` allow, which `wrap` changes to `0`. -/
noncomputable def twoPiFit :
    (Fin 10 → ℝ) → List ℝ → (Fin 10 → ℝ) × (Fin 10 → Fin 10 → ℝ) :=
  fun _ _ => (fun _ => 2 * Real.pi, fun _ _ => 0)

/-- C6 counterexample: the original claim — every table row `r` holds
the FIT OUTPUT of spectrum row `n - 1 - r` — fails on a concrete run.
With a fit oracle always returning phase `2π` over two spectrum rows,
`params.append(popt)` stores the array the next iteration normalizes
in place, so table row 1 of the phase column holds `wrap(2π) = 0`,
while the fit output of spectrum row 0 has phase `2π ≠ 0`. -/
theorem aggregate_rows_eq_fit_outputs_false :
    ¬ ∀ r : ℕ, r < (intensityPopts odOracle twoPiFit twoPiFit (0, 0) 1).length →
      ((aggregate [10, 20] (fitLoop odOracle twoPiFit twoPiFit (0, 0) ([], [], none) [1]).1
          []).cols 0 0 1).getD r 0 =
        ((intensityPopts odOracle twoPiFit twoPiFit (0, 0) 1).getD
          ((intensityPopts odOracle twoPiFit twoPiFit (0, 0) 1).length - 1 - r)
          (fun _ => 0)) ⟨1, by norm_num⟩ := by
  intro hclaim
  have hlen : (intensityPopts odOracle twoPiFit twoPiFit (0, 0) 1).length = 2 := by
    simp [intensityPopts, innerSteps_length, odOracle]
  have h := hclaim 1 (by rw [hlen]; norm_num)
  rw [hlen] at h
  norm_num at h
  have hLHS : ((aggregate [10, 20]
      (fitLoop odOracle twoPiFit twoPiFit (0, 0) ([], [], none) [1]).1 []).cols 0 0 1).getD 1 0 =
      wrap (2 * Real.pi) := rfl
  have hRHS : ((intensityPopts odOracle twoPiFit twoPiFit (0, 0) 1).getD 0 (fun _ => 0))
      ⟨1, by norm_num⟩ = 2 * Real.pi := rfl
  have hcontra : wrap (2 * Real.pi) = 2 * Real.pi := by
    calc wrap (2 * Real.pi)
        = ((aggregate [10, 20] (fitLoop odOracle twoPiFit twoPiFit (0, 0)
            ([], [], none) [1]).1 []).cols 0 0 1).getD 1 0 := hLHS.symm
      _ = ((intensityPopts odOracle twoPiFit twoPiFit (0, 0) 1).getD 0 (fun _ => 0))
            ⟨1, by norm_num⟩ := h
      _ = 2 * Real.pi := hRHS
  rw [wrap_two_pi] at hcontra
  have hpi := Real.pi_pos
  linarith

/-- the whole run in the order of the script: fit loop, then
aggregation keyed by whatever `time_delay_axis` holds after the loop
(`none` models the `NameError` on an empty intensity list). -/
noncomputable def runPure (getOD : ℝ → List (List ℝ) × List ℝ)
    (seedFit boundedFit : (Fin 10 → ℝ) → List ℝ → (Fin 10 → ℝ) × (Fin 10 → Fin 10 → ℝ))
    (roi : ℕ × ℕ) (ints : List ℝ) : Option OutputTable :=
  match (fitLoop getOD seedFit boundedFit roi ([], [], none) ints).2.2 with
  | none => none
  | some tda => some (aggregate tda
      (fitLoop getOD seedFit boundedFit roi ([], [], none) ints).1
      (fitLoop getOD seedFit boundedFit roi ([], [], none) ints).2.1)

lemma fitLoop_tda_aux (getOD : ℝ → List (List ℝ) × List ℝ)
    (seedFit boundedFit : (Fin 10 → ℝ) → List ℝ → (Fin 10 → ℝ) × (Fin 10 → Fin 10 → ℝ))
    (roi : ℕ × ℕ) :
    ∀ (ints : List ℝ) (h : ints ≠ [])
      (acc : List (List (Fin 10 → ℝ)) × List (List (Fin 10 → ℝ)) × Option (List ℝ)),
      (fitLoop getOD seedFit boundedFit roi acc ints).2.2 =
        some ((getOD (ints.getLast h)).2) := by
  intro ints
  induction ints with
  | nil => intro h; exact absurd rfl h
  | cons a rest ih =>
    intro h acc
    cases rest with
    | nil => rfl
    | cons b rest2 =>
      rw [List.getLast_cons (by simp)]
      exact ih (by simp) _

/-- C10: the emitted table's `time` column is the reversed time-delay
axis of the LAST intensity processed, whatever axes the earlier
intensities produced: for every load/fit oracle and nonempty intensity
list, the run produces a table whose `time` equals
`(getOD last).2` reversed. -/
theorem runPure_time_from_last (getOD : ℝ → List (List ℝ) × List ℝ)
    (seedFit boundedFit : (Fin 10 → ℝ) → List ℝ → (Fin 10 → ℝ) × (Fin 10 → Fin 10 → ℝ))
    (roi : ℕ × ℕ) (ints : List ℝ) (h : ints ≠ []) :
    ∃ t, runPure getOD seedFit boundedFit roi ints = some t ∧
      t.time = ((getOD (ints.getLast h)).2).reverse := by
  have haux := fitLoop_tda_aux getOD seedFit boundedFit roi ints h ([], [], none)
  refine ⟨aggregate ((getOD (ints.getLast h)).2)
    (fitLoop getOD seedFit boundedFit roi ([], [], none) ints).1
    (fitLoop getOD seedFit boundedFit roi ([], [], none) ints).2.1, ?_, rfl⟩
  unfold runPure
  rw [haux]

/-- C10 witness instance. -/
theorem runPure_time_from_last_witness :
    ([1, 2] : List ℝ) ≠ [] ∧
    ∃ t, runPure (fun x => ([[x]], [x])) (fun g _ => (g, fun _ _ => 0))
        (fun g _ => (g, fun _ _ => 0)) (0, 0) [1, 2] = some t ∧
      t.time = ([(2:ℝ)]).reverse := by
  have h : ([1, 2] : List ℝ) ≠ [] := by simp
  obtain ⟨t, ht1, ht2⟩ := runPure_time_from_last (fun x => ([[x]], [x]))
    (fun g _ => (g, fun _ _ => 0)) (fun g _ => (g, fun _ _ => 0)) (0, 0) [1, 2] h
  refine ⟨h, t, ht1, ?_⟩
  rw [ht2]
  rfl

/-- the inner loop with failure: each `curve_fit` call may raise
(`FitConvergenceError`), and the script has no `try/except`, so a
raised error unwinds immediately — modelled by `Except`. -/
noncomputable def innerStepsE
    (boundedFit : (Fin 10 → ℝ) → List ℝ →
      Except String ((Fin 10 → ℝ) × (Fin 10 → Fin 10 → ℝ)))
    (roi : ℕ × ℕ) :
    (Fin 10 → ℝ) → List (List ℝ) →
      Except String (List ((Fin 10 → ℝ) × (Fin 10 → ℝ) × (Fin 10 → Fin 10 → ℝ)))
  | _, [] => Except.ok []
  | p_init, spectrum :: rest =>
    match boundedFit (normalize p_init) (pySlice roi spectrum) with
    | Except.error e => Except.error e
    | Except.ok r =>
      match innerStepsE boundedFit roi r.1 rest with
      | Except.error e => Except.error e
      | Except.ok tail => Except.ok ((normalize p_init, r.1, r.2) :: tail)

/-- one outer-loop body with failure: load the intensity's CSV
(`getOD`, may raise `DataNotFoundError`/`DataFormatError`), seed-fit
the averaged first 7 rows, then run the inner loop; any raised error
unwinds.  On success the stored parameter rows go through
`storedParams` (the in-place retro-normalization of the appended
`popt` arrays). -/
noncomputable def processIntensity
    (getOD : ℝ → Except String (List (List ℝ) × List ℝ))
    (seedFit boundedFit : (Fin 10 → ℝ) → List ℝ →
      Except String ((Fin 10 → ℝ) × (Fin 10 → Fin 10 → ℝ)))
    (roi : ℕ × ℕ) (intensity : ℝ) :
    Except String (List (Fin 10 → ℝ) × List (Fin 10 → ℝ) × List ℝ) :=
  match getOD intensity with
  | Except.error e => Except.error e
  | Except.ok od =>
    match seedFit p_initial (pySlice roi (colMean (od.1.take 7))) with
    | Except.error e => Except.error e
    | Except.ok seeded =>
      match innerStepsE boundedFit roi seeded.1 od.1 with
      | Except.error e => Except.error e
      | Except.ok steps =>
        Except.ok (storedParams (steps.map (fun st => st.2.1)),
          steps.map (fun st => fun i => Real.sqrt |st.2.2 i i|), od.2)

/-- the outer loop with failure: process the intensities in order,
threading `(optimum, fit_errs, time_delay_axis)`; the first raised
error aborts the remaining iterations and discards everything. -/
noncomputable def scriptFold
    (getOD : ℝ → Except String (List (List ℝ) × List ℝ))
    (seedFit boundedFit : (Fin 10 → ℝ) → List ℝ →
      Except String ((Fin 10 → ℝ) × (Fin 10 → Fin 10 → ℝ)))
    (roi : ℕ × ℕ) :
    List (List (Fin 10 → ℝ)) × List (List (Fin 10 → ℝ)) × Option (List ℝ) →
      List ℝ →
      Except String
        (List (List (Fin 10 → ℝ)) × List (List (Fin 10 → ℝ)) × Option (List ℝ))
  | acc, [] => Except.ok acc
  | acc, intensity :: rest =>
    match processIntensity getOD seedFit boundedFit roi intensity with
    | Except.error e => Except.error e
    | Except.ok pr =>
      scriptFold getOD seedFit boundedFit roi
        (acc.1 ++ [pr.1], acc.2.1 ++ [pr.2.1], some pr.2.2) rest

/-- the whole script with failure: the module-level ROI computation
(raising on a missing bound), the double fit loop, then `df.to_csv`;
the table exists only when every previous step succeeded. -/
noncomputable def script
    (getOD : ℝ → Except String (List (List ℝ) × List ℝ))
    (seedFit boundedFit : (Fin 10 → ℝ) → List ℝ →
      Except String ((Fin 10 → ℝ) × (Fin 10 → Fin 10 → ℝ)))
    (energy_axis : List ℝ) (ints : List ℝ) : Except String OutputTable :=
  match get_roi energy_axis erange with
  | none => Except.error "RegionOfInterestError"
  | some roi =>
    match scriptFold getOD seedFit boundedFit roi ([], [], none) ints with
    | Except.error e => Except.error e
    | Except.ok res =>
      match res.2.2 with
      | none => Except.error "NameError: time_delay_axis is not defined"
      | some tda => Except.ok (aggregate tda res.1 res.2.1)

lemma scriptFold_error
    (getOD : ℝ → Except String (List (List ℝ) × List ℝ))
    (seedFit boundedFit : (Fin 10 → ℝ) → List ℝ →
      Except String ((Fin 10 → ℝ) × (Fin 10 → Fin 10 → ℝ)))
    (roi : ℕ × ℕ) (x : ℝ) (e : String)
    (hx : processIntensity getOD seedFit boundedFit roi x = Except.error e) :
    ∀ (pre post : List ℝ) acc, ∃ e',
      scriptFold getOD seedFit boundedFit roi acc (pre ++ x :: post) =
        Except.error e' := by
  intro pre
  induction pre with
  | nil =>
    intro post acc
    refine ⟨e, ?_⟩
    show scriptFold getOD seedFit boundedFit roi acc (x :: post) = Except.error e
    unfold scriptFold
    rw [hx]
  | cons a pre' ih =>
    intro post acc
    show (∃ e', scriptFold getOD seedFit boundedFit roi acc
      (a :: (pre' ++ x :: post)) = Except.error e')
    unfold scriptFold
    cases hstep : processIntensity getOD seedFit boundedFit roi a with
    | error e'' => exact ⟨e'', rfl⟩
    | ok pr => exact ih post _

/-- C7: the script catches nothing — if the ROI computation fails, or
any spectrum load / seed fit / chained bounds-constrained fit inside
the double loop fails for any intensity `x` in the list, the whole run
ends in an error and no output table (not even one holding the
already-completed earlier fits) is produced. -/
theorem script_aborts_on_failure
    (getOD : ℝ → Except String (List (List ℝ) × List ℝ))
    (seedFit boundedFit : (Fin 10 → ℝ) → List ℝ →
      Except String ((Fin 10 → ℝ) × (Fin 10 → Fin 10 → ℝ)))
    (energy_axis : List ℝ) (pre post : List ℝ) (x : ℝ) (roi : ℕ × ℕ) (e : String)
    (h : get_roi energy_axis erange = none ∨
      (get_roi energy_axis erange = some roi ∧
        processIntensity getOD seedFit boundedFit roi x = Except.error e)) :
    ∃ e', script getOD seedFit boundedFit energy_axis (pre ++ x :: post) =
      Except.error e' := by
  rcases h with hn | ⟨hr, hp⟩
  · refine ⟨"RegionOfInterestError", ?_⟩
    unfold script
    rw [hn]
  · obtain ⟨e', he'⟩ :=
      scriptFold_error getOD seedFit boundedFit roi x e hp pre post ([], [], none)
    refine ⟨e', ?_⟩
    unfold script
    rw [hr]
    dsimp only
    rw [he']

/-- C7 witness instance: a missing ROI bound (empty energy axis) aborts
the run with an error. -/
theorem script_aborts_on_failure_witness :
    (get_roi ([] : List ℝ) erange = none ∨
      (get_roi ([] : List ℝ) erange = some (0, 0) ∧
        processIntensity (fun _ => Except.error "DataNotFoundError")
          (fun _ _ => Except.error "FitConvergenceError")
          (fun _ _ => Except.error "FitConvergenceError") (0, 0) 1.3 =
            Except.error "")) ∧
    ∃ e', script (fun _ => Except.error "DataNotFoundError")
        (fun _ _ => Except.error "FitConvergenceError")
        (fun _ _ => Except.error "FitConvergenceError") []
        ([] ++ (1.3:ℝ) :: []) = Except.error e' := by
  have h : get_roi ([] : List ℝ) erange = none := rfl
  exact ⟨Or.inl h, script_aborts_on_failure _ _ _ [] [] [] 1.3 (0, 0) "" (Or.inl h)⟩

end FitScript
